import Mathlib

/-!
Verification of the `query` package of `stubey/go-querystring`
(`src/query/encode.go`): encoding of annotated record (struct) values into
an ordered multi-map of URL query parameters.

The Go runtime values seen by the encoder through `reflect` are embedded
shallowly as the inductive type `GoValue`; `url.Values` (a map from string
to list of string, populated only through `Add`, which appends) is embedded
as an insertion-ordered list of key/value pairs `Vals`; Go `error` results
are embedded as `Option String` (`none` = nil error).  Each definition below
names the source function it translates.
-/

/-- The observable behaviour of the library type `time.Time` as used by
`encode.go`: `Unix()` (seconds), `Format(time.RFC3339)` and `IsZero()`.
The library's internals are outside the repository, so the type is embedded
by these three observations. -/
structure GoTime where
  unixSec : Int
  rfc3339 : String
  isZero : Bool
deriving DecidableEq, Repr

/-- The multi-map `url.Values`, restricted to the operations the source uses:
`make(url.Values)` is `[]` and `values.Add(k, v)` is `· ++ [(k, v)]`.
Insertion order per key is preserved by the list order. -/
abbrev Vals := List (String × String)

mutual
/-- A Go runtime value as seen through `reflect` by `encode.go`.
`custom` embeds a value of a type implementing the `Encoder` interface
(`EncodeValues(key string, v *url.Values) error`): the carried function is
the behaviour of the method, taking the key and the current multi-map and
returning the updated multi-map together with an optional error.  A `custom`
value is modelled as having kind `reflect.Struct` with no exported fields
(any kind is possible in Go; this choice matches the common case and is the
one the claims exercise).  For a nil pointer whose type implements
`Encoder`, lines 238-244 materialize a zero value first; the carried
function then denotes the zero value's method. -/
inductive GoValue where
  | bool (b : Bool)
  | int (i : Int)
  | uint (n : Nat)
  | str (s : String)
  | time (t : GoTime)
  | ptr (p : Option GoValue)
  | slice (elems : List GoValue)
  | strukt (fields : List GoField)
  | custom (enc : String → Vals → Vals × Option String)

/-- One struct field as seen by `reflectValue`: declared identifier
(`sf.Name`), raw `url` tag (`sf.Tag.Get("url")`), exported flag
(`sf.PkgPath == ""`), `sf.Anonymous`, and the field's value. -/
inductive GoField where
  | mk (fname : String) (urlTag : String) (exported : Bool) (anonymous : Bool) (value : GoValue)
end

/-- The value carried by a field. -/
def GoField.value : GoField → GoValue
  | .mk _ _ _ _ v => v

/-- tagOptions (line 373): the comma-separated options of a `url` tag. -/
abbrev tagOptions := List String

/-- tagOptions.Contains (lines 383-390): exact string membership. -/
def tagContains (o : tagOptions) (opt : String) : Bool :=
  match o with
  | [] => false
  | s :: rest => if s == opt then true else tagContains rest opt

/-- Helper for `parseTag`: `strings.Split(tag, ",")` specialised to the
single-character separator, on the character list of the tag. -/
def splitOnCommaAux (cs : List Char) (acc : List Char) : List String :=
  match cs with
  | [] => [String.mk acc.reverse]
  | c :: rest =>
    if c == ',' then String.mk acc.reverse :: splitOnCommaAux rest []
    else splitOnCommaAux rest (c :: acc)

/-- parseTag (lines 377-380): split the raw tag on commas; the head is the
name, the remaining tokens are the options. -/
def parseTag (tag : String) : String × tagOptions :=
  match splitOnCommaAux tag.toList [] with
  | [] => ("", [])
  | n :: rest => (n, rest)

/-- isEmptyValue (lines 348-369): kind-specific emptiness used by
`omitempty`.  `time.Time` has kind `reflect.Struct`, which is absent from
the switch, so it reaches the `timeType` test; any other struct (including
an `Encoder` implementation) is never empty. -/
def isEmptyValue : GoValue → Bool
  | .slice es => es.length == 0
  | .str s => s.length == 0
  | .bool b => !b
  | .int i => i == 0
  | .uint n => n == 0
  | .ptr p => p.isNone
  | .time t => t.isZero
  | .strukt _ => false
  | .custom _ => false

/-- The result of `reflect.Kind.String()` as printed by the `%v` verb in the
error message of `Values` (line 151). -/
def goKindName : GoValue → String
  | .bool _ => "bool"
  | .int _ => "int"
  | .uint _ => "uint"
  | .str _ => "string"
  | .slice _ => "slice"
  | .ptr _ => "ptr"
  | .strukt _ => "struct"
  | .time _ => "struct"
  | .custom _ => "struct"

/-- The test `sv.Kind() == reflect.Struct`: true for structs, for `time.Time`
(whose kind is `Struct`), and for `custom` values (modelled as struct-kind
`Encoder` implementations). -/
def kindStruct : GoValue → Bool
  | .strukt _ => true
  | .time _ => true
  | .custom _ => true
  | _ => false

mutual
/-- The call `fmt.Sprint(v.Interface())`, the default stringification at line 343.
The cases the encoder actually reaches through `valueString` are the scalar
kinds and slices of them; the renderings of pointers (machine addresses in
Go), structs and `time.Time` (its `String()` method) are abstracted. -/
def goSprint : GoValue → String
  | .bool b => if b then "true" else "false"
  | .int i => toString i
  | .uint n => Nat.repr n
  | .str s => s
  | .time t => t.rfc3339
  | .ptr none => "<nil>"
  | .ptr (some v) => "&" ++ goSprint v
  | .slice es => "[" ++ goSprintElems es ++ "]"
  | .strukt fs => "\x7b" ++ goSprintFields fs ++ "\x7d"
  | .custom _ => "\x7b\x7d"

/-- Space-separated element renderings, as `fmt.Sprint` does for slices. -/
def goSprintElems : List GoValue → String
  | [] => ""
  | [e] => goSprint e
  | e :: rest => goSprint e ++ " " ++ goSprintElems rest

/-- Space-separated field renderings, as `fmt.Sprint` does for structs. -/
def goSprintFields : List GoField → String
  | [] => ""
  | [.mk _ _ _ _ v] => goSprint v
  | .mk _ _ _ _ v :: rest => goSprint v ++ " " ++ goSprintFields rest
end

/-- valueString (lines 320-344): dereference pointers (a nil pointer yields
the empty string), then booleans honour the `int` option, `time.Time`
honours the `unix` option (else RFC3339), and everything else is
`fmt.Sprint`. -/
def valueString : GoValue → tagOptions → String
  | .ptr none, _ => ""
  | .ptr (some v), opts => valueString v opts
  | .bool b, opts =>
    if tagContains opts "int" then (if b then "1" else "0")
    else (if b then "true" else "false")
  | .time t, opts =>
    if tagContains opts "unix" then toString t.unixSec else t.rfc3339
  | v, _ => goSprint v

/-- The delimiter byte chosen at lines 255-261 (`0` when no join option). -/
def sliceDelim (opts : tagOptions) : Char :=
  if tagContains opts "comma" then ','
  else if tagContains opts "space" then ' '
  else if tagContains opts "semicolon" then ';'
  else Char.ofNat 0

/-- The first/WriteByte loop of lines 267-276: elements separated by the
delimiter, in order. -/
def joinWith (del : Char) (xs : List String) : String :=
  match xs with
  | [] => ""
  | x :: rest => List.foldl (fun acc y => acc ++ String.singleton del ++ y) x rest

/-- Lines 254-287: encoding of a slice/array field.  With a join delimiter,
one entry holding the joined element strings; otherwise one entry per
element, with `[]` appended to the key if `brackets` is set (lines 262-263)
and the zero-based index appended if `numbered` is set (lines 281-283). -/
def encodeSlice (values : Vals) (name : String) (opts : tagOptions)
    (es : List GoValue) : Vals :=
  let del := sliceDelim opts
  if del == Char.ofNat 0 then
    let bname := if tagContains opts "brackets" then name ++ "[]" else name
    values ++ es.enum.map (fun p =>
      (if tagContains opts "numbered" then bname ++ Nat.repr p.1 else bname,
       valueString p.2 opts))
  else
    values ++ [(name, joinWith del (es.map (fun e => valueString e opts)))]

/-- Line 207/220: an empty parsed name falls back to the declared field
identifier. -/
def defaultName (name0 fname : String) : String :=
  if name0 == "" then fname else name0

/-- Lines 224-227: a non-empty scope prefixes the name as `scope[name]`. -/
def scopeName (scope name : String) : String :=
  if scope != "" then scope ++ "[" ++ name ++ "]" else name

/-- The pointer-dereferencing loop of lines 295-300: follow non-nil
pointers; a nil pointer is left in place (the loop breaks). -/
def derefPtr : GoValue → GoValue
  | .ptr (some v) => derefPtr v
  | v => v

/-- The pointer loop of `Values` (lines 131-139): dereference the top-level
value; `none` when a nil pointer is hit anywhere in the chain. -/
def stripPtrs : GoValue → Option GoValue
  | .ptr none => none
  | .ptr (some v) => stripPtrs v
  | v => some v

mutual
/-- The body of one iteration of the field loop of `reflectValue`
(lines 175-308), for the field `f`.  Returns the updated multi-map and the
error, if the iteration executed `return err`; `(values', none)` means the
loop would continue with map `values'` (skipped fields and deferred
embedded fields leave the map unchanged). -/
def stepField (values : Vals) (scope : String) (f : GoField) : Vals × Option String :=
  match f with
  | .mk fname tg ex an v =>
    -- lines 186-189: skip unexported, non-anonymous fields
    if !ex && !an then (values, none)
    -- lines 198-201: skip when the raw tag is exactly "-"
    else if tg == "-" then (values, none)
    else stepTagged values scope fname (parseTag tg).1 (parseTag tg).2 an v
termination_by (sizeOf f, 2)

/-- Lines 206-307 of the field loop, after the tag has been parsed into
`name0` and `opts`. -/
def stepTagged (values : Vals) (scope fname name0 : String) (opts : tagOptions)
    (an : Bool) (v : GoValue) : Vals × Option String :=
  -- lines 213-218: defer an anonymous struct-kind field with empty name
  if name0 == "" && an && kindStruct v then (values, none)
  else
    let name := scopeName scope (defaultName name0 fname)
    -- lines 229-232: omitempty
    if tagContains opts "omitempty" && isEmptyValue v then (values, none)
    else
      match v with
      -- lines 235-252: custom encoder dispatch
      | .custom enc => enc name values
      -- lines 254-288: slice/array
      | .slice es => (encodeSlice values name opts es, none)
      -- lines 290-293: values whose type is exactly time.Time
      | .time t => (values ++ [(name, valueString (.time t) opts)], none)
      -- lines 295-307: pointer resolution, nested structs, leaves
      | sv => (encodeLeaf values name opts sv, none)
termination_by (sizeOf v, 1)

/-- Lines 295-307: dereference non-nil pointers, recurse into a struct
(discarding the recursion's error, exactly as line 303 ignores the return
value of `reflectValue`), and otherwise add the stringified leaf.
A dereferenced `time.Time` or `Encoder`-struct has kind `Struct` and only
unexported fields, so the recursion of line 303 adds nothing for it. -/
def encodeLeaf (values : Vals) (name : String) (opts : tagOptions) (v : GoValue) : Vals :=
  match v with
  | .ptr (some inner) => encodeLeaf values name opts inner
  | .strukt fs => (reflectStruct values fs name).1
  | .time _ => values
  | .custom _ => values
  | sv => values ++ [(name, valueString sv opts)]
termination_by (sizeOf v, 0)

/-- The direct-field pass of `reflectValue` (the loop of lines 175-308):
process each field in declaration order, stopping at the first custom
encoder error. -/
def reflectDirect (values : Vals) (fields : List GoField) (scope : String) :
    Vals × Option String :=
  match fields with
  | [] => (values, none)
  | f :: rest =>
    match stepField values scope f with
    | (v', some e) => (v', some e)
    | (v', none) => reflectDirect v' rest scope
termination_by (sizeOf fields, 3)

/-- The embedded-field pass of `reflectValue` (lines 310-314): the fields
deferred by lines 213-218, in order, each encoded with the original scope;
the first error stops the pass and is returned.  A deferred `time.Time` or
`Encoder`-struct value has only unexported fields, so its recursion adds
nothing and reports no error. -/
def reflectEmbedded (values : Vals) (fields : List GoField) (scope : String) :
    Vals × Option String :=
  match fields with
  | [] => (values, none)
  | .mk _fname tg ex an v :: rest =>
    if (ex || an) && tg != "-" && (parseTag tg).1 == "" && an && kindStruct v then
      match v with
      | .strukt fs =>
        match reflectStruct values fs scope with
        | (v', some e) => (v', some e)
        | (v', none) => reflectEmbedded v' rest scope
      | _ => reflectEmbedded values rest scope
    else reflectEmbedded values rest scope
termination_by (sizeOf fields, 3)

/-- reflectValue (lines 166-317) on a struct with the given fields: the
direct-field pass followed, when it did not error, by the embedded pass. -/
def reflectStruct (values : Vals) (fields : List GoField) (scope : String) :
    Vals × Option String :=
  match reflectDirect values fields scope with
  | (v', some e) => (v', some e)
  | (v', none) => reflectEmbedded v' fields scope
termination_by (sizeOf fields, 4)
end

/-- Values (lines 120-160): dereference the top-level pointer chain (a nil
pointer yields the empty map with no error, as does a nil input), reject a
non-struct kind with an error naming the kind, and otherwise run
`reflectValue` with the empty scope.  A top-level `time.Time` or
`Encoder` struct has kind `Struct` and only unexported fields, so it yields
the empty map. -/
def Values (v : Option GoValue) : Option Vals × Option String :=
  match v with
  | none => (some [], none)
  | some v0 =>
    match stripPtrs v0 with
    | none => (some [], none)
    | some (.strukt fs) =>
      match reflectStruct [] fs "" with
      | (vals, err) => (some vals, err)
    | some (.time _) => (some [], none)
    | some (.custom _) => (some [], none)
    | some w => (none, some ("query: Values() expects struct input. Got " ++ goKindName w))

/-- A nil-resolving chain of pointers: a pointer whose chain of referents
ends in a nil pointer. -/
def isNilChain : GoValue → Bool
  | .ptr none => true
  | .ptr (some v) => isNilChain v
  | _ => false

/-! Unfolding lemmas for the recursive encoder. -/

theorem reflectDirect_nil (values : Vals) (scope : String) :
    reflectDirect values [] scope = (values, none) := by
  simp [reflectDirect]

theorem reflectDirect_cons_err (values v' : Vals) (scope : String) (f : GoField)
    (rest : List GoField) (e : String) (h : stepField values scope f = (v', some e)) :
    reflectDirect values (f :: rest) scope = (v', some e) := by
  rw [reflectDirect, h]

theorem reflectDirect_cons_ok (values v' : Vals) (scope : String) (f : GoField)
    (rest : List GoField) (h : stepField values scope f = (v', none)) :
    reflectDirect values (f :: rest) scope = reflectDirect v' rest scope := by
  rw [reflectDirect, h]

theorem reflectDirect_append (xs : List GoField) (values : Vals) (ys : List GoField)
    (scope : String) :
    reflectDirect values (xs ++ ys) scope =
      match reflectDirect values xs scope with
      | (v', some e) => (v', some e)
      | (v', none) => reflectDirect v' ys scope := by
  induction xs generalizing values with
  | nil => simp [reflectDirect_nil]
  | cons f rest ih =>
    rcases h : stepField values scope f with ⟨v', e⟩
    cases e with
    | none =>
      rw [List.cons_append, reflectDirect_cons_ok values v' scope f _ h,
        reflectDirect_cons_ok values v' scope f rest h, ih]
    | some e =>
      rw [List.cons_append, reflectDirect_cons_err values v' scope f _ e h,
        reflectDirect_cons_err values v' scope f rest e h]

theorem reflectEmbedded_nil (values : Vals) (scope : String) :
    reflectEmbedded values [] scope = (values, none) := by
  simp [reflectEmbedded]

/-- A field whose raw tag is exactly `-` is not deferred by the embedded
pass (it was skipped at line 198 before the deferral test). -/
theorem reflectEmbedded_cons_dash (values : Vals) (scope nm : String)
    (ex an : Bool) (v : GoValue) (rest : List GoField) :
    reflectEmbedded values (.mk nm "-" ex an v :: rest) scope =
      reflectEmbedded values rest scope := by
  cases v <;> simp [reflectEmbedded]

/-- A field that the direct pass skips wholesale (tag `-`) is invisible to
the direct pass. -/
theorem stepField_dash (values : Vals) (scope nm : String) (ex an : Bool)
    (v : GoValue) :
    stepField values scope (.mk nm "-" ex an v) = (values, none) := by
  rw [stepField]
  by_cases h : (!ex && !an) = true <;> simp [h]

/-- One iteration of the embedded pass (lines 310-314) for a single field:
the recursion into a deferred embedded struct, or no change. -/
def embedStep (values : Vals) (scope : String) : GoField → Vals × Option String
  | .mk _ tg ex an v =>
    if (ex || an) && tg != "-" && ((parseTag tg).1 == "") && an && kindStruct v then
      match v with
      | .strukt fs => reflectStruct values fs scope
      | _ => (values, none)
    else (values, none)

theorem reflectEmbedded_cons (values : Vals) (scope : String) (f : GoField)
    (rest : List GoField) :
    reflectEmbedded values (f :: rest) scope =
      match embedStep values scope f with
      | (v', some e) => (v', some e)
      | (v', none) => reflectEmbedded v' rest scope := by
  obtain ⟨nm, tg, ex, an, v⟩ := f
  by_cases hc : ((ex || an) && tg != "-" && ((parseTag tg).1 == "") && an && kindStruct v) = true
  · cases v <;> simp only [reflectEmbedded, embedStep, hc, if_true]
  · cases v <;> simp only [reflectEmbedded, embedStep, hc] <;> simp [hc]

theorem reflectEmbedded_append (xs : List GoField) (values : Vals) (ys : List GoField)
    (scope : String) :
    reflectEmbedded values (xs ++ ys) scope =
      match reflectEmbedded values xs scope with
      | (v', some e) => (v', some e)
      | (v', none) => reflectEmbedded v' ys scope := by
  induction xs generalizing values with
  | nil => simp [reflectEmbedded_nil]
  | cons f rest ih =>
    rw [List.cons_append, reflectEmbedded_cons, reflectEmbedded_cons]
    rcases h : embedStep values scope f with ⟨v', e⟩
    cases e with
    | none => simpa using ih v'
    | some e => simp

theorem Values_strukt (fs : List GoField) :
    Values (some (.strukt fs)) =
      (some (reflectStruct [] fs "").1, (reflectStruct [] fs "").2) := by
  rcases h : reflectStruct [] fs "" with ⟨vals, err⟩
  simp [Values, stripPtrs, h]

theorem reflectStruct_eq (values : Vals) (fields : List GoField) (scope : String) :
    reflectStruct values fields scope =
      match reflectDirect values fields scope with
      | (v', some e) => (v', some e)
      | (v', none) => reflectEmbedded v' fields scope := by
  rw [reflectStruct]

/-- Claim C2, counterexample: a field whose tag is `-,omitempty` is NOT
suppressed — line 198 compares the raw tag against `-`, so the tag
`-,omitempty` parses to the name `-` and the field contributes the entry
`("-", "x")`, contradicting the claim that no entry derived from the field
appears regardless of options following the sentinel. -/
theorem C2_counterexample :
    Values (some (.strukt [.mk "F" "-,omitempty" true false (.str "x")])) =
      (some [("-", "x")], none) := by
  simp +decide [Values, reflectStruct, reflectDirect, reflectEmbedded, stepField,
    stepTagged, encodeLeaf, parseTag, splitOnCommaAux, scopeName, defaultName,
    valueString, tagContains, kindStruct, isEmptyValue, stripPtrs, goSprint]

/-- Claim C2 (amended): for every field whose RAW tag string is exactly `-`
(with no options following it), the output of `Values` is the same as if
the field were absent from the record, so no entry is derived from it.
(A tag of the form `-,opts` instead yields a field named `-`, see the
counterexample.) -/
theorem C2_dash_tag_skipped (before after : List GoField) (nm : String)
    (ex an : Bool) (v : GoValue) :
    Values (some (.strukt (before ++ .mk nm "-" ex an v :: after))) =
      Values (some (.strukt (before ++ after))) := by
  have hD : ∀ values : Vals, reflectDirect values (before ++ .mk nm "-" ex an v :: after) "" =
      reflectDirect values (before ++ after) "" := by
    intro values
    rw [reflectDirect_append, reflectDirect_append]
    rcases h : reflectDirect values before "" with ⟨v1, e⟩
    cases e with
    | none =>
      simp only
      rw [reflectDirect_cons_ok v1 v1 "" _ after (stepField_dash v1 "" nm ex an v)]
    | some e => simp
  have hE : ∀ values : Vals, reflectEmbedded values (before ++ .mk nm "-" ex an v :: after) "" =
      reflectEmbedded values (before ++ after) "" := by
    intro values
    rw [reflectEmbedded_append, reflectEmbedded_append]
    rcases h : reflectEmbedded values before "" with ⟨v1, e⟩
    cases e with
    | none => simp only; rw [reflectEmbedded_cons_dash]
    | some e => simp
  rw [Values_strukt, Values_strukt, reflectStruct_eq, reflectStruct_eq, hD]
  rcases h : reflectDirect [] (before ++ after) "" with ⟨v1, e⟩
  cases e with
  | none => simp only; rw [hE]
  | some e => simp

theorem scopeName_empty (n : String) : scopeName "" n = n := by
  simp [scopeName]

/-- An exported, non-anonymous field of `Encoder` type, not tagged `-`,
reaches the custom-encoder dispatch of lines 235-252 with the computed
name and the multi-map built so far. -/
theorem stepField_custom (values : Vals) (scope nm tg : String)
    (enc : String → Vals → Vals × Option String) (h : (tg == "-") = false) :
    stepField values scope (.mk nm tg true false (.custom enc)) =
      enc (scopeName scope (defaultName (parseTag tg).1 nm)) values := by
  rw [stepField]
  simp [h, stepTagged, isEmptyValue]

/-- Claim C1, counterexample: an error returned by a custom encoder inside
a nested record encoded with a bracketed scope is NOT returned by `Values`.
Line 303 ignores the value returned by the recursive `reflectValue` call,
so the encoder's error `"boom"` is discarded and `Values` reports success. -/
theorem C1_counterexample :
    Values (some (.strukt [.mk "Inner" "" true false (.strukt
      [.mk "F" "" true false (.custom (fun _ vs => (vs, some "boom")))])])) =
      (some [], none) := by
  simp +decide [Values, reflectStruct, reflectDirect, reflectEmbedded, stepField,
    stepTagged, encodeLeaf, parseTag, splitOnCommaAux, scopeName, defaultName,
    valueString, tagContains, kindStruct, isEmptyValue, stripPtrs, goSprint]

/-- Claim C1 (amended): when the failing field is a direct field of the
top-level record (reached after an error-free prefix of fields), `Values`
aborts the traversal there and returns the encoder's error unchanged,
together with the multi-map accumulated so far; an error raised by an
encoder inside a nested record encoded with a bracketed scope is instead
discarded (line 303 ignores the recursion's return value — see the
counterexample) and traversal continues. -/
theorem C1_direct_error_propagates (before after : List GoField) (nm tg : String)
    (enc : String → Vals → Vals × Option String) (v1 v2 : Vals) (e : String)
    (hb : reflectDirect [] before "" = (v1, none))
    (ht : (tg == "-") = false)
    (he : enc (defaultName (parseTag tg).1 nm) v1 = (v2, some e)) :
    Values (some (.strukt (before ++ .mk nm tg true false (.custom enc) :: after))) =
      (some v2, some e) := by
  have hstep : stepField v1 "" (.mk nm tg true false (.custom enc)) = (v2, some e) := by
    rw [stepField_custom v1 "" nm tg enc ht, scopeName_empty, he]
  rw [Values_strukt, reflectStruct_eq, reflectDirect_append, hb]
  simp only
  rw [reflectDirect_cons_err v1 v2 "" _ after e hstep]

/-- Claim C1, witness: a concrete record whose single (direct) field's
encoder fails with `"boom"`; `Values` returns exactly that error. -/
theorem C1_witness :
    Values (some (.strukt [.mk "F" "q" true false
      (.custom (fun _ vs => (vs, some "boom")))])) = (some [], some "boom") :=
  C1_direct_error_propagates [] [] "F" "q" _ [] [] "boom"
    (reflectDirect_nil [] "") (by decide) rfl

theorem stripPtrs_of_nilChain : ∀ (v : GoValue), isNilChain v = true → stripPtrs v = none
  | .ptr none, _ => by simp [stripPtrs]
  | .ptr (some w), h => by
    have ih := stripPtrs_of_nilChain w (by simpa [isNilChain] using h)
    simpa [stripPtrs] using ih
  | .bool _, h => by simp [isNilChain] at h
  | .int _, h => by simp [isNilChain] at h
  | .uint _, h => by simp [isNilChain] at h
  | .str _, h => by simp [isNilChain] at h
  | .time _, h => by simp [isNilChain] at h
  | .slice _, h => by simp [isNilChain] at h
  | .strukt _, h => by simp [isNilChain] at h
  | .custom _, h => by simp [isNilChain] at h

/-- Claim C3: a nil input (no type information) and any chain of pointers
containing a nil anywhere both make `Values` return the empty multi-map and
no error (lines 120-145). -/
theorem C3_nil_input :
    Values none = (some [], none) ∧
      ∀ v : GoValue, isNilChain v = true → Values (some v) = (some [], none) := by
  refine ⟨rfl, fun v h => ?_⟩
  simp [Values, stripPtrs_of_nilChain v h]

/-- Claim C3, witness: a pointer to a nil pointer. -/
theorem C3_witness : Values (some (.ptr (some (.ptr none)))) = (some [], none) :=
  C3_nil_input.2 _ (by decide)

/-- Claim C4: an input that is neither a struct nor a pointer chain
resolving to one makes `Values` return a nil map and the error naming the
offending kind (lines 148-152). -/
theorem C4_invalid_kind (v w : GoValue) (hs : stripPtrs v = some w)
    (hk : kindStruct w = false) :
    Values (some v) =
      (none, some ("query: Values() expects struct input. Got " ++ goKindName w)) := by
  cases w <;> simp_all [Values, kindStruct, goKindName]

/-- Claim C4, witness: a bare integer input. -/
theorem C4_witness :
    Values (some (.int 7)) =
      (none, some ("query: Values() expects struct input. Got " ++ goKindName (.int 7))) :=
  C4_invalid_kind (.int 7) (.int 7) (by simp [stripPtrs]) (by decide)

/-- Claim C10: a field whose declared type is a non-nil pointer to
`time.Time` contributes no entry at all: the `timeType` test of line 290
inspects the un-dereferenced pointer type and fails, the pointer is then
dereferenced (lines 295-300) to a `time.Time`, whose kind is `Struct`, so
line 303 recurses into it — and every one of its fields is unexported, so
nothing is added and no error arises. -/
theorem C10_ptr_time_no_entries (values : Vals) (scope fname tg : String) (t : GoTime)
    (ht : (tg == "-") = false) :
    stepField values scope (.mk fname tg true false (.ptr (some (.time t)))) =
      (values, none) := by
  rw [stepField]
  simp [ht, stepTagged, isEmptyValue, encodeLeaf]

/-- Claim C10, witness: a concrete non-nil pointer-to-timestamp field. -/
theorem C10_witness :
    stepField [] "" (.mk "T" "t" true false (.ptr (some (.time ⟨5, "x", false⟩)))) =
      ([], none) :=
  C10_ptr_time_no_entries [] "" "T" "t" ⟨5, "x", false⟩ (by decide)

/-- Claim C5: a slice/array field with at least one of the join options
gets exactly one entry, under the computed (unmodified) name, whose value
is the elements' `valueString` forms joined by the delimiter of the
highest-precedence present option — comma over space over semicolon
(lines 254-277) — in original element order. -/
theorem C5_join_option (values : Vals) (scope fname tg : String) (an : Bool)
    (es : List GoValue)
    (ht : (tg == "-") = false)
    (hj : (tagContains (parseTag tg).2 "comma" || tagContains (parseTag tg).2 "space" ||
           tagContains (parseTag tg).2 "semicolon") = true)
    (ho : (tagContains (parseTag tg).2 "omitempty" && isEmptyValue (.slice es)) = false) :
    stepField values scope (.mk fname tg true an (.slice es)) =
      (values ++ [(scopeName scope (defaultName (parseTag tg).1 fname),
        joinWith (if tagContains (parseTag tg).2 "comma" then ','
                  else if tagContains (parseTag tg).2 "space" then ' ' else ';')
          (es.map (fun e => valueString e (parseTag tg).2)))], none) := by
  rcases hpt : parseTag tg with ⟨n0, opts⟩
  rw [stepField]
  simp only [hpt, ht, Bool.not_true, Bool.and_false, Bool.false_and, if_false,
    Bool.not_false, Bool.and_self]
  rw [stepTagged]
  simp only [hpt] at ho hj
  simp only [kindStruct, Bool.and_false, if_false, ho, ite_false,
    Bool.false_eq_true]
  by_cases hc : tagContains opts "comma" = true
  · simp +decide [encodeSlice, sliceDelim, hc]
  · by_cases hsp : tagContains opts "space" = true
    · simp +decide [encodeSlice, sliceDelim, hc, hsp]
    · have hsem : tagContains opts "semicolon" = true := by
        rcases Bool.or_eq_true_iff.mp hj with h | h
        · rcases Bool.or_eq_true_iff.mp h with h' | h'
          · exact absurd h' hc
          · exact absurd h' hsp
        · exact h
      simp +decide [encodeSlice, sliceDelim, hc, hsp, hsem]

/-- Claim C5, witness: `[]string{"a","b"}` tagged `tags,comma` becomes the
single entry `tags=a,b`. -/
theorem C5_witness :
    stepField [] "" (.mk "Tags" "tags,comma" true false
      (.slice [.str "a", .str "b"])) = ([("tags", "a,b")], none) := by
  have h := C5_join_option [] "" "Tags" "tags,comma" false [.str "a", .str "b"]
    (by decide) (by decide) (by decide)
  simpa [parseTag, splitOnCommaAux, tagContains, scopeName, defaultName, joinWith,
    valueString, goSprint] using h

/-- Claim C6: a slice/array field with none of the join options gets one
entry per element, in original order (so as many entries as elements);
the key is the computed name, with `[]` appended when `brackets` is set
(line 263) and with the zero-based element index appended when `numbered`
is set (line 282). -/
theorem C6_no_join_option (values : Vals) (scope fname tg : String) (an : Bool)
    (es : List GoValue)
    (ht : (tg == "-") = false)
    (hc : tagContains (parseTag tg).2 "comma" = false)
    (hs : tagContains (parseTag tg).2 "space" = false)
    (hm : tagContains (parseTag tg).2 "semicolon" = false)
    (ho : (tagContains (parseTag tg).2 "omitempty" && isEmptyValue (.slice es)) = false) :
    stepField values scope (.mk fname tg true an (.slice es)) =
      (values ++ es.enum.map (fun p =>
        (if tagContains (parseTag tg).2 "numbered"
         then (if tagContains (parseTag tg).2 "brackets"
               then scopeName scope (defaultName (parseTag tg).1 fname) ++ "[]"
               else scopeName scope (defaultName (parseTag tg).1 fname)) ++ Nat.repr p.1
         else (if tagContains (parseTag tg).2 "brackets"
               then scopeName scope (defaultName (parseTag tg).1 fname) ++ "[]"
               else scopeName scope (defaultName (parseTag tg).1 fname)),
         valueString p.2 (parseTag tg).2)), none) ∧
    (stepField values scope (.mk fname tg true an (.slice es))).1.length =
      values.length + es.length := by
  rcases hpt : parseTag tg with ⟨n0, opts⟩
  have h1 : stepField values scope (.mk fname tg true an (.slice es)) =
      (values ++ es.enum.map (fun p =>
        (if tagContains opts "numbered"
         then (if tagContains opts "brackets"
               then scopeName scope (defaultName n0 fname) ++ "[]"
               else scopeName scope (defaultName n0 fname)) ++ Nat.repr p.1
         else (if tagContains opts "brackets"
               then scopeName scope (defaultName n0 fname) ++ "[]"
               else scopeName scope (defaultName n0 fname)),
         valueString p.2 opts)), none) := by
    rw [stepField]
    simp only [hpt, ht, Bool.not_true, Bool.and_false, Bool.false_and, if_false,
      Bool.not_false, Bool.and_self]
    rw [stepTagged]
    simp only [hpt] at ho
    simp only [kindStruct, Bool.and_false, if_false, ho, ite_false,
      Bool.false_eq_true]
    simp only [hpt] at hc hs hm
    simp +decide [encodeSlice, sliceDelim, hc, hs, hm]
  refine ⟨by simpa [hpt] using h1, ?_⟩
  rw [h1]
  simp [List.length_append, List.length_map, List.enum_length]

/-- Claim C6, witness: `[]string{"a","b"}` tagged `tags,numbered` becomes
`tags0=a&tags1=b` — two entries (the slice length), in order. -/
theorem C6_witness :
    stepField [] "" (.mk "Tags" "tags,numbered" true false
      (.slice [.str "a", .str "b"])) = ([("tags0", "a"), ("tags1", "b")], none) := by
  have h := C6_no_join_option [] "" "Tags" "tags,numbered" false [.str "a", .str "b"]
    (by decide) (by decide) (by decide) (by decide) (by decide)
  simpa [parseTag, splitOnCommaAux, tagContains, scopeName, defaultName,
    valueString, goSprint, List.enum] using h.1

/-- The emptiness predicate as worded by the specification (section 4.2):
false for booleans, zero for numeric kinds, zero length for
strings/sequences/sets/mappings, absence for nilable references, the
timestamp-specific zero test for timestamps, and never empty otherwise.
Stated independently of `isEmptyValue` to compare the two. -/
def emptySpec : GoValue → Bool
  | .bool b => b == false
  | .int i => i == 0
  | .uint n => n == 0
  | .str s => s == ""
  | .slice es => es.isEmpty
  | .ptr p => p.isNone
  | .time t => t.isZero
  | _ => false

theorem valueString_omit : ∀ (v : GoValue) (opts : tagOptions),
    valueString v ("omitempty" :: opts) = valueString v opts
  | .ptr none, _ => by simp [valueString]
  | .ptr (some v), opts => by
    simpa [valueString] using valueString_omit v opts
  | .bool b, opts => by simp +decide [valueString, tagContains]
  | .time t, opts => by simp +decide [valueString, tagContains]
  | .int _, _ => by simp [valueString]
  | .uint _, _ => by simp [valueString]
  | .str _, _ => by simp [valueString]
  | .slice _, _ => by simp [valueString]
  | .strukt _, _ => by simp [valueString]
  | .custom _, _ => by simp [valueString]

theorem encodeSlice_omit (values : Vals) (name : String) (opts : tagOptions)
    (es : List GoValue) :
    encodeSlice values name ("omitempty" :: opts) es = encodeSlice values name opts es := by
  simp +decide [encodeSlice, sliceDelim, tagContains, valueString_omit]

theorem encodeLeaf_omit : ∀ (v : GoValue) (values : Vals) (name : String)
    (opts : tagOptions),
    encodeLeaf values name ("omitempty" :: opts) v = encodeLeaf values name opts v
  | .ptr (some v), values, name, opts => by
    simpa [encodeLeaf] using encodeLeaf_omit v values name opts
  | .ptr none, _, _, _ => by simp [encodeLeaf, valueString_omit]
  | .strukt _, _, _, _ => by simp [encodeLeaf]
  | .time _, _, _, _ => by simp [encodeLeaf]
  | .custom _, _, _, _ => by simp [encodeLeaf]
  | .bool _, _, _, _ => by simp [encodeLeaf, valueString_omit]
  | .int _, _, _, _ => by simp [encodeLeaf, valueString_omit]
  | .uint _, _, _, _ => by simp [encodeLeaf, valueString_omit]
  | .str _, _, _, _ => by simp [encodeLeaf, valueString_omit]
  | .slice _, _, _, _ => by simp [encodeLeaf, valueString_omit]

/-- Claim C7: (1) a non-anonymous field carrying `omitempty` whose value is
empty per `isEmptyValue` is skipped, contributing nothing (lines 229-232);
(2) for a non-empty value the `omitempty` option is inert: adding it to the
options changes nothing, so exactly the normal entries are added; and
(3) `isEmptyValue` agrees with the kind-by-kind emptiness predicate as the
specification words it. -/
theorem C7_omitempty :
    (∀ (values : Vals) (scope fname name0 : String) (opts : tagOptions) (v : GoValue),
      tagContains opts "omitempty" = true → isEmptyValue v = true →
      stepTagged values scope fname name0 opts false v = (values, none)) ∧
    (∀ (values : Vals) (scope fname name0 : String) (opts : tagOptions)
      (an : Bool) (v : GoValue),
      isEmptyValue v = false →
      stepTagged values scope fname name0 ("omitempty" :: opts) an v =
        stepTagged values scope fname name0 opts an v) ∧
    (∀ v : GoValue, isEmptyValue v = emptySpec v) := by
  refine ⟨fun values scope fname name0 opts v h1 h2 => ?_,
    fun values scope fname name0 opts an v h => ?_, fun v => ?_⟩
  · rw [stepTagged]
    simp [h1, h2]
  · rw [stepTagged, stepTagged]
    cases v <;>
      simp +decide [h, tagContains, encodeSlice_omit, encodeLeaf_omit, valueString_omit]
  · cases v with
    | str s =>
      obtain ⟨data⟩ := s
      cases data with
      | nil => rfl
      | cons c cs =>
        have h1 : ((String.mk (c :: cs)).length == 0) = false := by
          simp [String.length]
        have h2 : (String.mk (c :: cs) == "") = false := by
          rw [beq_eq_false_iff_ne]
          intro h
          simpa using congrArg String.data h
        simp [isEmptyValue, emptySpec, h1, h2]
    | slice es => cases es <;> simp [isEmptyValue, emptySpec]
    | bool b => cases b <;> rfl
    | _ => simp [isEmptyValue, emptySpec]

/-- Claim C7, witness: an `omitempty` integer field valued 0 is skipped;
with value 3 the option is inert; and the predicates agree on 0. -/
theorem C7_witness :
    stepTagged [] "" "Page" "page" ["omitempty"] false (.int 0) = ([], none) ∧
    stepTagged [] "" "Page" "page" ["omitempty"] false (.int 3) =
      stepTagged [] "" "Page" "page" [] false (.int 3) ∧
    isEmptyValue (.int 0) = emptySpec (.int 0) :=
  ⟨C7_omitempty.1 [] "" "Page" "page" ["omitempty"] (.int 0) (by decide) (by decide),
   C7_omitempty.2.1 [] "" "Page" "page" [] false (.int 3) (by decide),
   C7_omitempty.2.2 (.int 0)⟩

/-- Claim C9: the scalar stringification rules of `valueString`
(lines 320-344): booleans are `true`/`false`, or `1`/`0` under the `int`
option; timestamps are the RFC3339 rendering by default and decimal Unix
seconds under the `unix` option; a nil (absent) pointer stringifies to the
empty string. -/
theorem C9_scalar_rules (opts : tagOptions) (b : Bool) (t : GoTime) :
    (tagContains opts "int" = true →
      valueString (.bool b) opts = if b then "1" else "0") ∧
    (tagContains opts "int" = false →
      valueString (.bool b) opts = if b then "true" else "false") ∧
    (tagContains opts "unix" = true →
      valueString (.time t) opts = toString t.unixSec) ∧
    (tagContains opts "unix" = false →
      valueString (.time t) opts = t.rfc3339) ∧
    valueString (.ptr none) opts = "" := by
  refine ⟨fun h => ?_, fun h => ?_, fun h => ?_, fun h => ?_, ?_⟩ <;>
    simp [valueString, *]

/-- Claim C9, witness: the five rules at concrete inputs. -/
theorem C9_witness :
    valueString (.bool true) ["int"] = "1" ∧
    valueString (.bool true) [] = "true" ∧
    valueString (.time ⟨7, "R", false⟩) ["unix"] = "7" ∧
    valueString (.time ⟨7, "R", false⟩) [] = "R" ∧
    valueString (.ptr none) [] = "" := by
  have h7 : toString (7 : Int) = "7" := by decide
  refine ⟨?_, ?_, ?_, ?_, ?_⟩
  · simpa using (C9_scalar_rules ["int"] true ⟨7, "R", false⟩).1 (by decide)
  · simpa using (C9_scalar_rules [] true ⟨7, "R", false⟩).2.1 (by decide)
  · simpa [h7] using (C9_scalar_rules ["unix"] true ⟨7, "R", false⟩).2.2.1 (by decide)
  · simpa using (C9_scalar_rules [] true ⟨7, "R", false⟩).2.2.2.1 (by decide)
  · simpa using (C9_scalar_rules [] true ⟨7, "R", false⟩).2.2.2.2

mutual
/-- No value reachable from `v` is a custom `Encoder` implementation
(custom encoders receive the scoped key but may write arbitrary keys, so
the bracketed-prefix naming invariant is stated for encoder-free trees). -/
def noCustom : GoValue → Bool
  | .custom _ => false
  | .ptr none => true
  | .ptr (some v) => noCustom v
  | .slice es => noCustomElems es
  | .strukt fs => noCustomFields fs
  | _ => true

/-- All elements are free of custom encoders. -/
def noCustomElems : List GoValue → Bool
  | [] => true
  | e :: rest => noCustom e && noCustomElems rest

/-- All field values are free of custom encoders. -/
def noCustomFields : List GoField → Bool
  | [] => true
  | .mk _ _ _ _ v :: rest => noCustom v && noCustomFields rest
end

theorem scopeName_of_ne (scope n : String) (hs : scope ≠ "") :
    scopeName scope n = scope ++ "[" ++ (n ++ "]") := by
  have hb : (scope != "") = true := by simpa [bne_iff_ne] using hs
  simp [scopeName, hb, String.append_assoc]

theorem scopeName_ne (scope n : String) (h : n ≠ "") : scopeName scope n ≠ "" := by
  by_cases hsc : scope = ""
  · subst hsc; simpa [scopeName_empty] using h
  · rw [scopeName_of_ne scope n hsc]
    intro heq
    have hlen := congrArg String.length heq
    have h1 : ("[" : String).length = 1 := rfl
    have h2 : ("]" : String).length = 1 := rfl
    simp [String.length_append, h1, h2] at hlen

/-- The slice branch (lines 254-288) only appends entries, and every
appended key extends the computed field name. -/
theorem encodeSlicePrefix (values : Vals) (name : String) (opts : tagOptions)
    (es : List GoValue) :
    ∃ t, encodeSlice values name opts es = values ++ t ∧
      ∀ kv ∈ t, ∃ r, kv.1 = name ++ r := by
  by_cases hd : (sliceDelim opts == Char.ofNat 0) = true
  · refine ⟨es.enum.map (fun p =>
      (if tagContains opts "numbered"
       then (if tagContains opts "brackets" then name ++ "[]" else name) ++ Nat.repr p.1
       else (if tagContains opts "brackets" then name ++ "[]" else name),
       valueString p.2 opts)), by simp [encodeSlice, hd], ?_⟩
    intro kv hkv
    simp only [List.mem_map] at hkv
    obtain ⟨p, _, rfl⟩ := hkv
    by_cases hn : tagContains opts "numbered" = true <;>
      by_cases hb : tagContains opts "brackets" = true
    · exact ⟨"[]" ++ Nat.repr p.1, by simp [hn, hb, String.append_assoc]⟩
    · exact ⟨Nat.repr p.1, by simp [hn, hb]⟩
    · exact ⟨"[]", by simp [hn, hb]⟩
    · exact ⟨"", by simp [hn, hb, String.append_empty]⟩
  · refine ⟨[(name, joinWith (sliceDelim opts) (es.map (fun e => valueString e opts)))],
      by simp [encodeSlice, hd], ?_⟩
    intro kv hkv
    simp only [List.mem_singleton] at hkv
    exact ⟨"", by simp [hkv, String.append_empty]⟩

theorem scopeName_ne_of_scope (scope n : String) (hs : scope ≠ "") :
    scopeName scope n ≠ "" := by
  rw [scopeName_of_ne scope n hs]
  intro heq
  have hlen := congrArg String.length heq
  have h1 : ("[" : String).length = 1 := rfl
  have h2 : ("]" : String).length = 1 := rfl
  simp [String.length_append, h1, h2] at hlen

/-- Case analysis of one tagged field iteration (lines 206-307): it either
skips (deferral or omitempty), dispatches to the custom encoder, encodes a
slice, adds a timestamp entry, or falls to the leaf branch. -/
theorem stepTagged_shape (values : Vals) (scope fname name0 : String)
    (opts : tagOptions) (an : Bool) (v : GoValue) :
    stepTagged values scope fname name0 opts an v = (values, none) ∨
    (∃ enc, v = .custom enc ∧ stepTagged values scope fname name0 opts an v =
      enc (scopeName scope (defaultName name0 fname)) values) ∨
    (∃ es, v = .slice es ∧ stepTagged values scope fname name0 opts an v =
      (encodeSlice values (scopeName scope (defaultName name0 fname)) opts es, none)) ∨
    (∃ tv, v = .time tv ∧ stepTagged values scope fname name0 opts an v =
      (values ++ [(scopeName scope (defaultName name0 fname),
        valueString (.time tv) opts)], none)) ∨
    stepTagged values scope fname name0 opts an v =
      (encodeLeaf values (scopeName scope (defaultName name0 fname)) opts v, none) := by
  rw [stepTagged]
  cases hdef : (name0 == "" && an && kindStruct v) with
  | true => left; simp [hdef]
  | false =>
    cases homit : (tagContains opts "omitempty" && isEmptyValue v) with
    | true => left; simp [hdef, homit]
    | false =>
      cases v
      case custom enc =>
        right; left; exact ⟨enc, rfl, by simp [hdef, homit]⟩
      case slice es =>
        right; right; left; exact ⟨es, rfl, by simp [hdef, homit]⟩
      case time tv =>
        right; right; right; left; exact ⟨tv, rfl, by simp [hdef, homit]⟩
      all_goals right; right; right; right; simp [hdef, homit]

mutual
/-- Every entry the leaf branch (lines 295-307) appends for an encoder-free
value has a key extending the computed field name, and the multi-map is
only extended. -/
theorem encodeLeafPrefix (v : GoValue) (values : Vals) (name : String)
    (opts : tagOptions) (hnc : noCustom v = true) (hne : name ≠ "") :
    ∃ t, encodeLeaf values name opts v = values ++ t ∧
      ∀ kv ∈ t, ∃ r, kv.1 = name ++ r :=
  match v, hnc with
  | .custom _, hnc => absurd hnc (by simp [noCustom])
  | .time _, _ => ⟨[], by simp [encodeLeaf], by simp⟩
  | .strukt fs, hnc => by
    obtain ⟨t, ht, hp⟩ := reflectStructPrefix fs values name
      (by simpa [noCustom] using hnc) hne
    refine ⟨t, by simp [encodeLeaf, ht], ?_⟩
    intro kv hkv
    obtain ⟨r, hr⟩ := hp kv hkv
    exact ⟨"[" ++ r, by rw [hr, String.append_assoc]⟩
  | .ptr (some inner), hnc => by
    have ih := encodeLeafPrefix inner values name opts
      (by simpa [noCustom] using hnc) hne
    simpa [encodeLeaf] using ih
  | .ptr none, _ => by
    simp only [encodeLeaf]
    refine ⟨_, rfl, ?_⟩
    intro kv hkv
    simp only [List.mem_singleton] at hkv
    exact ⟨"", by simp [hkv, String.append_empty]⟩
  | .bool _, _ => by
    simp only [encodeLeaf]
    refine ⟨_, rfl, ?_⟩
    intro kv hkv
    simp only [List.mem_singleton] at hkv
    exact ⟨"", by simp [hkv, String.append_empty]⟩
  | .int _, _ => by
    simp only [encodeLeaf]
    refine ⟨_, rfl, ?_⟩
    intro kv hkv
    simp only [List.mem_singleton] at hkv
    exact ⟨"", by simp [hkv, String.append_empty]⟩
  | .uint _, _ => by
    simp only [encodeLeaf]
    refine ⟨_, rfl, ?_⟩
    intro kv hkv
    simp only [List.mem_singleton] at hkv
    exact ⟨"", by simp [hkv, String.append_empty]⟩
  | .str _, _ => by
    simp only [encodeLeaf]
    refine ⟨_, rfl, ?_⟩
    intro kv hkv
    simp only [List.mem_singleton] at hkv
    exact ⟨"", by simp [hkv, String.append_empty]⟩
  | .slice _, _ => by
    simp only [encodeLeaf]
    refine ⟨_, rfl, ?_⟩
    intro kv hkv
    simp only [List.mem_singleton] at hkv
    exact ⟨"", by simp [hkv, String.append_empty]⟩
termination_by (sizeOf v, 0)

/-- Every entry one tagged field (lines 206-307) appends for an
encoder-free value, under a non-empty scope, has a key extending
`scope ++ "["`, and the iteration reports no error. -/
theorem stepTaggedPrefix (v : GoValue) (values : Vals)
    (scope fname name0 : String) (opts : tagOptions) (an : Bool)
    (hnc : noCustom v = true) (hs : scope ≠ "") :
    ∃ t, stepTagged values scope fname name0 opts an v = (values ++ t, none) ∧
      ∀ kv ∈ t, ∃ r, kv.1 = scope ++ "[" ++ r := by
  have hname := scopeName_of_ne scope (defaultName name0 fname) hs
  have hne2 := scopeName_ne_of_scope scope (defaultName name0 fname) hs
  rcases stepTagged_shape values scope fname name0 opts an v with
    h | ⟨enc, rfl, h⟩ | ⟨es, rfl, h⟩ | ⟨tv, rfl, h⟩ | h
  · exact ⟨[], by simp [h], by simp⟩
  · exact absurd hnc (by simp [noCustom])
  · obtain ⟨t, ht, hp⟩ := encodeSlicePrefix values
      (scopeName scope (defaultName name0 fname)) opts es
    refine ⟨t, by rw [h, ht], ?_⟩
    intro kv hkv
    obtain ⟨r, hr⟩ := hp kv hkv
    exact ⟨defaultName name0 fname ++ "]" ++ r,
      by rw [hr, hname, String.append_assoc, String.append_assoc]⟩
  · refine ⟨[(scopeName scope (defaultName name0 fname),
      valueString (.time tv) opts)], by rw [h], ?_⟩
    intro kv hkv
    simp only [List.mem_singleton] at hkv
    exact ⟨defaultName name0 fname ++ "]", by simp [hkv, hname]⟩
  · obtain ⟨t, ht, hp⟩ := encodeLeafPrefix v values
      (scopeName scope (defaultName name0 fname)) opts hnc hne2
    refine ⟨t, by rw [h, ht], ?_⟩
    intro kv hkv
    obtain ⟨r, hr⟩ := hp kv hkv
    exact ⟨defaultName name0 fname ++ "]" ++ r,
      by rw [hr, hname, String.append_assoc, String.append_assoc]⟩
termination_by (sizeOf v, 1)

/-- Every entry one field iteration (lines 175-308) appends for an
encoder-free field value, under a non-empty scope, has a key extending
`scope ++ "["`. -/
theorem stepFieldPrefix (f : GoField) (values : Vals) (scope : String)
    (hnc : noCustom f.value = true) (hs : scope ≠ "") :
    ∃ t, stepField values scope f = (values ++ t, none) ∧
      ∀ kv ∈ t, ∃ r, kv.1 = scope ++ "[" ++ r :=
  match f, hnc with
  | .mk nm tg ex an v, hnc => by
    rw [stepField]
    by_cases h1 : (!ex && !an) = true
    · rw [if_pos h1]
      exact ⟨[], by simp, by simp⟩
    · rw [if_neg h1]
      by_cases h2 : (tg == "-") = true
      · rw [if_pos h2]
        exact ⟨[], by simp, by simp⟩
      · rw [if_neg h2]
        exact stepTaggedPrefix v values scope nm (parseTag tg).1 (parseTag tg).2 an hnc hs
termination_by (sizeOf f, 2)

/-- The direct-field pass over encoder-free fields only appends entries,
all keyed under `scope ++ "["`, and reports no error. -/
theorem reflectDirectPrefix (fs : List GoField) (values : Vals) (scope : String)
    (hnc : noCustomFields fs = true) (hs : scope ≠ "") :
    ∃ t, reflectDirect values fs scope = (values ++ t, none) ∧
      ∀ kv ∈ t, ∃ r, kv.1 = scope ++ "[" ++ r :=
  match fs, hnc with
  | [], _ => ⟨[], by simp [reflectDirect_nil], by simp⟩
  | .mk nm tg ex an v :: rest, hnc => by
    have hnc' : noCustom v = true ∧ noCustomFields rest = true := by
      simpa [noCustomFields, Bool.and_eq_true] using hnc
    obtain ⟨t1, h1, p1⟩ := stepFieldPrefix (.mk nm tg ex an v) values scope hnc'.1 hs
    obtain ⟨t2, h2, p2⟩ := reflectDirectPrefix rest (values ++ t1) scope hnc'.2 hs
    refine ⟨t1 ++ t2, ?_, ?_⟩
    · rw [reflectDirect_cons_ok values (values ++ t1) scope _ rest h1, h2,
        List.append_assoc]
    · intro kv hkv
      rcases List.mem_append.mp hkv with h | h
      exacts [p1 kv h, p2 kv h]
termination_by (sizeOf fs, 3)

/-- The embedded pass over encoder-free fields only appends entries, all
keyed under `scope ++ "["`, and reports no error. -/
theorem reflectEmbeddedPrefix (fs : List GoField) (values : Vals) (scope : String)
    (hnc : noCustomFields fs = true) (hs : scope ≠ "") :
    ∃ t, reflectEmbedded values fs scope = (values ++ t, none) ∧
      ∀ kv ∈ t, ∃ r, kv.1 = scope ++ "[" ++ r :=
  match fs, hnc with
  | [], _ => ⟨[], by simp [reflectEmbedded_nil], by simp⟩
  | .mk nm tg ex an (.strukt fs') :: rest, hnc => by
    have hnc' : noCustomFields fs' = true ∧ noCustomFields rest = true := by
      simp only [noCustomFields, noCustom, Bool.and_eq_true] at hnc
      exact hnc
    rw [reflectEmbedded_cons]
    by_cases hc : ((ex || an) && tg != "-" && ((parseTag tg).1 == "") && an &&
        kindStruct (.strukt fs')) = true
    · obtain ⟨t1, h1, p1⟩ := reflectStructPrefix fs' values scope hnc'.1 hs
      obtain ⟨t2, h2, p2⟩ := reflectEmbeddedPrefix rest (values ++ t1) scope hnc'.2 hs
      refine ⟨t1 ++ t2, ?_, ?_⟩
      · simp only [embedStep, hc, if_true, h1]
        simpa [List.append_assoc] using h2
      · intro kv hkv
        rcases List.mem_append.mp hkv with h | h
        exacts [p1 kv h, p2 kv h]
    · obtain ⟨t2, h2, p2⟩ := reflectEmbeddedPrefix rest values scope hnc'.2 hs
      refine ⟨t2, ?_, p2⟩
      simp only [embedStep, hc, if_false]
      simpa using h2
  | .mk nm tg ex an (.bool b) :: rest, hnc => by
    have hnc2 : noCustomFields rest = true := by
      simpa [noCustomFields, noCustom, Bool.and_eq_true] using hnc
    obtain ⟨t2, h2, p2⟩ := reflectEmbeddedPrefix rest values scope hnc2 hs
    refine ⟨t2, ?_, p2⟩
    rw [reflectEmbedded_cons]
    simp only [embedStep, ite_self]
    simpa using h2
  | .mk nm tg ex an (.int i) :: rest, hnc => by
    have hnc2 : noCustomFields rest = true := by
      simpa [noCustomFields, noCustom, Bool.and_eq_true] using hnc
    obtain ⟨t2, h2, p2⟩ := reflectEmbeddedPrefix rest values scope hnc2 hs
    refine ⟨t2, ?_, p2⟩
    rw [reflectEmbedded_cons]
    simp only [embedStep, ite_self]
    simpa using h2
  | .mk nm tg ex an (.uint n) :: rest, hnc => by
    have hnc2 : noCustomFields rest = true := by
      simpa [noCustomFields, noCustom, Bool.and_eq_true] using hnc
    obtain ⟨t2, h2, p2⟩ := reflectEmbeddedPrefix rest values scope hnc2 hs
    refine ⟨t2, ?_, p2⟩
    rw [reflectEmbedded_cons]
    simp only [embedStep, ite_self]
    simpa using h2
  | .mk nm tg ex an (.str s) :: rest, hnc => by
    have hnc2 : noCustomFields rest = true := by
      simpa [noCustomFields, noCustom, Bool.and_eq_true] using hnc
    obtain ⟨t2, h2, p2⟩ := reflectEmbeddedPrefix rest values scope hnc2 hs
    refine ⟨t2, ?_, p2⟩
    rw [reflectEmbedded_cons]
    simp only [embedStep, ite_self]
    simpa using h2
  | .mk nm tg ex an (.time t) :: rest, hnc => by
    have hnc2 : noCustomFields rest = true := by
      simpa [noCustomFields, noCustom, Bool.and_eq_true] using hnc
    obtain ⟨t2, h2, p2⟩ := reflectEmbeddedPrefix rest values scope hnc2 hs
    refine ⟨t2, ?_, p2⟩
    rw [reflectEmbedded_cons]
    simp only [embedStep, ite_self]
    simpa using h2
  | .mk nm tg ex an (.ptr p) :: rest, hnc => by
    have hnc2 : noCustomFields rest = true := by
      have h := (by simpa [noCustomFields, Bool.and_eq_true] using hnc :
        noCustom (.ptr p) = true ∧ noCustomFields rest = true)
      exact h.2
    obtain ⟨t2, h2, p2⟩ := reflectEmbeddedPrefix rest values scope hnc2 hs
    refine ⟨t2, ?_, p2⟩
    rw [reflectEmbedded_cons]
    simp only [embedStep, ite_self]
    simpa using h2
  | .mk nm tg ex an (.slice es) :: rest, hnc => by
    have hnc2 : noCustomFields rest = true := by
      have h := (by simpa [noCustomFields, Bool.and_eq_true] using hnc :
        noCustom (.slice es) = true ∧ noCustomFields rest = true)
      exact h.2
    obtain ⟨t2, h2, p2⟩ := reflectEmbeddedPrefix rest values scope hnc2 hs
    refine ⟨t2, ?_, p2⟩
    rw [reflectEmbedded_cons]
    simp only [embedStep, ite_self]
    simpa using h2
  | .mk nm tg ex an (.custom enc) :: rest, hnc => by
    have hnc2 : noCustomFields rest = true := by
      simp only [noCustomFields, noCustom, Bool.and_eq_true] at hnc
      exact hnc.2
    obtain ⟨t2, h2, p2⟩ := reflectEmbeddedPrefix rest values scope hnc2 hs
    refine ⟨t2, ?_, p2⟩
    rw [reflectEmbedded_cons]
    simp only [embedStep, ite_self]
    simpa using h2
termination_by (sizeOf fs, 3)

/-- The whole of `reflectValue` over an encoder-free struct only appends
entries, all keyed under `scope ++ "["`, and reports no error. -/
theorem reflectStructPrefix (fs : List GoField) (values : Vals) (scope : String)
    (hnc : noCustomFields fs = true) (hs : scope ≠ "") :
    ∃ t, reflectStruct values fs scope = (values ++ t, none) ∧
      ∀ kv ∈ t, ∃ r, kv.1 = scope ++ "[" ++ r := by
  obtain ⟨t1, h1, p1⟩ := reflectDirectPrefix fs values scope hnc hs
  obtain ⟨t2, h2, p2⟩ := reflectEmbeddedPrefix fs (values ++ t1) scope hnc hs
  refine ⟨t1 ++ t2, ?_, ?_⟩
  · rw [reflectStruct_eq, h1]
    simp only
    rw [h2, List.append_assoc]
  · intro kv hkv
    rcases List.mem_append.mp hkv with h | h
    exacts [p1 kv h, p2 kv h]
termination_by (sizeOf fs, 4)
end

theorem isEmpty_of_derefPtr_strukt : ∀ (v : GoValue) (fs : List GoField),
    derefPtr v = .strukt fs → isEmptyValue v = false
  | .ptr (some _), _, _ => by simp [isEmptyValue]
  | .ptr none, _, h => by simp [derefPtr] at h
  | .strukt _, _, _ => by simp [isEmptyValue]
  | .bool _, _, h => by simp [derefPtr] at h
  | .int _, _, h => by simp [derefPtr] at h
  | .uint _, _, h => by simp [derefPtr] at h
  | .str _, _, h => by simp [derefPtr] at h
  | .time _, _, h => by simp [derefPtr] at h
  | .slice _, _, h => by simp [derefPtr] at h
  | .custom _, _, h => by simp [derefPtr] at h

/-- When the pointer chain of lines 295-300 resolves to a struct, the leaf
branch is exactly the nested recursion of line 303 (error discarded). -/
theorem encodeLeaf_derefPtr_strukt : ∀ (v : GoValue) (fs : List GoField),
    derefPtr v = .strukt fs → ∀ (values : Vals) (name : String) (opts : tagOptions),
    encodeLeaf values name opts v = (reflectStruct values fs name).1
  | .ptr (some w), fs, h => by
    intro values name opts
    have hw : derefPtr w = .strukt fs := by simpa [derefPtr] using h
    simpa [encodeLeaf] using encodeLeaf_derefPtr_strukt w fs hw values name opts
  | .ptr none, _, h => by simp [derefPtr] at h
  | .strukt fs', fs, h => by
    intro values name opts
    have : fs' = fs := by simpa [derefPtr] using h
    subst this
    simp [encodeLeaf]
  | .bool _, _, h => by simp [derefPtr] at h
  | .int _, _, h => by simp [derefPtr] at h
  | .uint _, _, h => by simp [derefPtr] at h
  | .str _, _, h => by simp [derefPtr] at h
  | .time _, _, h => by simp [derefPtr] at h
  | .slice _, _, h => by simp [derefPtr] at h
  | .custom _, _, h => by simp [derefPtr] at h

/-- Claim C8: for a field whose pointer-resolved value is a nested
(non-embedded) encoder-free record, the iteration only appends to the one
shared multi-map, and every appended entry's key is prefixed by the
bracketed composition `computedName ++ "["` — recursively, so deeper leaves
get `outer[inner][leaf]`-shaped keys (lines 224-227 and 302-305). -/
theorem C8_nested_scoping (values : Vals) (scope fname tg : String) (v : GoValue)
    (fs : List GoField)
    (htg : (tg == "-") = false)
    (hd : derefPtr v = .strukt fs)
    (hnc : noCustomFields fs = true)
    (hn : defaultName (parseTag tg).1 fname ≠ "") :
    ∃ t, stepField values scope (.mk fname tg true false v) = (values ++ t, none) ∧
      ∀ kv ∈ t, ∃ r,
        kv.1 = scopeName scope (defaultName (parseTag tg).1 fname) ++ "[" ++ r := by
  have hname_ne : scopeName scope (defaultName (parseTag tg).1 fname) ≠ "" := by
    by_cases hsc : scope = ""
    · subst hsc; simpa [scopeName_empty] using hn
    · exact scopeName_ne_of_scope _ _ hsc
  rw [stepField]
  simp only [htg, Bool.not_true, Bool.not_false, Bool.false_and, Bool.and_false,
    Bool.false_eq_true, if_false]
  rcases stepTagged_shape values scope fname (parseTag tg).1 (parseTag tg).2 false v with
    h | ⟨enc, he, h⟩ | ⟨es, he, h⟩ | ⟨tv, he, h⟩ | h
  · exact ⟨[], by simp [h], by simp⟩
  · subst he; simp [derefPtr] at hd
  · subst he; simp [derefPtr] at hd
  · subst he; simp [derefPtr] at hd
  · rw [h, encodeLeaf_derefPtr_strukt v fs hd values _ (parseTag tg).2]
    obtain ⟨t, h2, hp⟩ := reflectStructPrefix fs values
      (scopeName scope (defaultName (parseTag tg).1 fname)) hnc hname_ne
    exact ⟨t, by rw [h2], hp⟩

/-- Claim C8, witness: a `user`-tagged struct with an `addr` struct inside;
all produced keys extend `user[`. -/
theorem C8_witness :
    ∃ t, stepField [] "" (.mk "User" "user" true false (.strukt [
        .mk "Name" "name" true false (.str "acme"),
        .mk "Addr" "addr" true false (.strukt [
          .mk "City" "city" true false (.str "SFO")])])) = ([] ++ t, none) ∧
      ∀ kv ∈ t, ∃ r,
        kv.1 = scopeName "" (defaultName (parseTag "user").1 "User") ++ "[" ++ r :=
  C8_nested_scoping [] "" "User" "user"
    (.strukt [.mk "Name" "name" true false (.str "acme"),
      .mk "Addr" "addr" true false (.strukt [
        .mk "City" "city" true false (.str "SFO")])])
    [.mk "Name" "name" true false (.str "acme"),
      .mk "Addr" "addr" true false (.strukt [
        .mk "City" "city" true false (.str "SFO")])]
    (by decide) (by simp [derefPtr]) (by simp [noCustomFields, noCustom]) (by decide)


